import Mathlib

/-!
Verification development for the Conductor-Dashboard core: a shallow
embedding of the track data model, the merge engine, the plan-phase status
derivation, the reload classifier and the load orchestration, translated
from the Rust source (src/model/enums.rs, src/model/track.rs,
src/model/cache.rs, src/parser/plan.rs, src/parser/index.rs,
src/parser/metadata.rs, src/parser/mod.rs), together with theorems
settling the specification's claims about them.

Modelling conventions: Rust in-place mutation becomes functional record
update; `f32` percentage arithmetic is modelled exactly over `ℚ`;
timestamps (`DateTime<Utc>`) are opaque and modelled as `Nat`; filesystem
paths are lists of path components; filesystem contents are abstract
structures recording, for each well-known file, whether it is absent,
unreadable/malformed, or parsed.
-/

set_option linter.unusedVariables false

namespace Conductor

/-- Track status, from src/model/enums.rs (`Status`). -/
inductive Status where
  | New
  | InProgress
  | Blocked
  | Complete
deriving DecidableEq

/-- Priority, from src/model/enums.rs (`Priority`). -/
inductive Priority where
  | Critical
  | High
  | Medium
  | Low
deriving DecidableEq

/-- Checkbox status parsed from tracks.md H2 headings, from
src/model/enums.rs (`CheckboxStatus`). -/
inductive CheckboxStatus where
  | Unchecked
  | InProgress
  | Checked
deriving DecidableEq

/-- Phase status derived from task completion, from src/model/enums.rs
(`PhaseStatus`). -/
inductive PhaseStatus where
  | Pending
  | Active
  | Complete
  | Blocked
deriving DecidableEq

/-- Track type, from src/model/enums.rs (`TrackType`). -/
inductive TrackType where
  | Feature
  | Bug
  | Migration
  | Refactor
  | Other
deriving DecidableEq

/-- CheckboxStatus::to_status from src/model/enums.rs lines 127-136:
map a checkbox to a Status, used as a fallback when metadata is missing. -/
def CheckboxStatus.to_status : CheckboxStatus → Status
  | .Unchecked => .New
  | .InProgress => .InProgress
  | .Checked => .Complete

/-- ASCII lowercasing of one character, as Rust's to_ascii_lowercase does
per character; defined structurally so that concrete inputs evaluate. -/
def asciiLowerChar (c : Char) : Char :=
  if 'A' ≤ c ∧ c ≤ 'Z' then Char.ofNat (c.toNat + 32) else c

/-- ASCII lowercasing of a string (Rust str::to_ascii_lowercase). -/
def toAsciiLower (s : String) : String :=
  String.mk (s.data.map asciiLowerChar)

/-- Whitespace test used by trimming (space, tab, newline, carriage
return). -/
def isWsChar (c : Char) : Bool :=
  c = ' ' ∨ c = '\t' ∨ c = '\n' ∨ c = '\r'

/-- Whitespace trimming (Rust str::trim), defined structurally over the
character list. -/
def trimWs (s : String) : String :=
  String.mk (((s.data.dropWhile fun c => isWsChar c).reverse.dropWhile
    fun c => isWsChar c).reverse)

/-- Split a character list at every occurrence of a separator character
(Rust str::split with a char pattern): always at least one piece. -/
def splitListOn (c : Char) : List Char → List (List Char)
  | [] => [[]]
  | x :: xs =>
    if x = c then [] :: splitListOn c xs
    else
      match splitListOn c xs with
      | h :: t => (x :: h) :: t
      | [] => [[x]]

/-- Split a string at every occurrence of a separator character. -/
def splitOnChar (c : Char) (s : String) : List String :=
  (splitListOn c s.data).map String.mk

/-- Status::from_str_loose from src/model/enums.rs lines 51-60: lenient
status-string coercion (ASCII-lowercased, trimmed, vocabulary table). -/
def Status.from_str_loose (s : String) : Status :=
  let lower := trimWs (toAsciiLower s)
  if lower = "complete" ∨ lower = "completed" ∨ lower = "done" then .Complete
  else if lower = "in_progress" ∨ lower = "in-progress" ∨ lower = "active" ∨
          lower = "implementation" then .InProgress
  else if lower = "blocked" ∨ lower = "on_hold" then .Blocked
  else .New

/-- Priority::from_str_loose from src/model/enums.rs lines 86-96. -/
def Priority.from_str_loose (s : String) : Priority :=
  let lower := trimWs (toAsciiLower s)
  if lower = "critical" then .Critical
  else if lower = "high" then .High
  else if lower = "medium" ∨ lower = "med" then .Medium
  else if lower = "low" then .Low
  else .Medium

/-- TrackType::from_str_loose from src/model/enums.rs lines 193-202. -/
def TrackType.from_str_loose (s : String) : TrackType :=
  let lower := trimWs (toAsciiLower s)
  if lower = "feature" ∨ lower = "feat" then .Feature
  else if lower = "bug" ∨ lower = "bugfix" ∨ lower = "fix" then .Bug
  else if lower = "migration" ∨ lower = "migrate" then .Migration
  else if lower = "refactor" ∨ lower = "refactoring" then .Refactor
  else .Other

/-- PlanTask from src/model/track.rs lines 199-203. -/
structure PlanTask where
  text : String
  done : Bool
deriving DecidableEq

/-- PlanPhase from src/model/track.rs lines 175-180. -/
structure PlanPhase where
  name : String
  status : PhaseStatus
  tasks : List PlanTask
deriving DecidableEq

/-- Track from src/model/track.rs lines 46-64.  TrackId is modelled as its
underlying String; DateTime is modelled as an opaque Nat. -/
structure Track where
  id : String
  title : String
  status : Status
  priority : Priority
  track_type : TrackType
  phase : String
  created_at : Option Nat
  updated_at : Option Nat
  dependencies : List String
  tasks_total : Nat
  tasks_completed : Nat
  checkbox_status : CheckboxStatus
  plan_phases : List PlanPhase
  tags : List String
  branch : Option String
  description : Option String
deriving DecidableEq

/-- TrackMetadata from src/model/track.rs lines 209-220. -/
structure TrackMetadata where
  status : Status
  priority : Priority
  track_type : TrackType
  created_at : Option Nat
  updated_at : Option Nat
  dependencies : List String
  tags : List String
  branch : Option String
  description : Option String
deriving DecidableEq

/-- Default::default() for Track, from src/model/track.rs lines 148-169. -/
def Track.default : Track where
  id := ""
  title := ""
  status := .New
  priority := .Medium
  track_type := .Other
  phase := ""
  created_at := none
  updated_at := none
  dependencies := []
  tasks_total := 0
  tasks_completed := 0
  checkbox_status := .Unchecked
  plan_phases := []
  tags := []
  branch := none
  description := none

/-- Track::progress_percent from src/model/track.rs lines 67-72, with the
f32 arithmetic modelled exactly over the rationals. -/
def Track.progress_percent (t : Track) : ℚ :=
  if t.tasks_total = 0 then 0
  else ((t.tasks_completed : ℚ) / (t.tasks_total : ℚ)) * 100

/-- Track::merge_metadata from src/model/track.rs lines 81-110: each field
of the metadata overwrites the track's field only when it differs from the
documented default.  (`TrackId::new` on dependency strings is the identity
in this model.) -/
def Track.merge_metadata (t : Track) (meta : TrackMetadata) : Track :=
  { t with
    status := if meta.status ≠ Status.New then meta.status else t.status
    priority := if meta.priority ≠ Priority.Medium then meta.priority else t.priority
    track_type := if meta.track_type ≠ TrackType.Other then meta.track_type else t.track_type
    created_at := match meta.created_at with
      | some dt => some dt
      | none => t.created_at
    updated_at := match meta.updated_at with
      | some dt => some dt
      | none => t.updated_at
    dependencies := if meta.dependencies ≠ [] then meta.dependencies else t.dependencies
    tags := if meta.tags ≠ [] then meta.tags else t.tags
    branch := if meta.branch.isSome then meta.branch else t.branch
    description := if meta.description.isSome then meta.description else t.description }

/-- Track::mark_all_tasks_complete from src/model/track.rs lines 114-122:
force every task done, every phase Complete, completed = total. -/
def Track.mark_all_tasks_complete (t : Track) : Track :=
  { t with
    plan_phases := t.plan_phases.map (fun ph =>
      { ph with
        tasks := ph.tasks.map (fun tk => { tk with done := true })
        status := PhaseStatus.Complete })
    tasks_completed := t.tasks_total }

/-- Track::merge_plan from src/model/track.rs lines 125-145: replace the
phase list, recompute the task counters by the source's fold, and derive
the current phase name from the first Active/Pending phase, falling back to
the last phase. -/
def Track.merge_plan (t : Track) (phases : List PlanPhase) : Track :=
  let tc := phases.foldl
    (fun (acc : Nat × Nat) ph =>
      (acc.1 + ph.tasks.length, acc.2 + (ph.tasks.filter (fun tk => tk.done)).length))
    (0, 0)
  let base := { t with
    tasks_total := tc.1
    tasks_completed := tc.2
    plan_phases := phases }
  match phases.find? (fun p =>
      decide (p.status = PhaseStatus.Active ∨ p.status = PhaseStatus.Pending)) with
  | some active => { base with phase := active.name }
  | none =>
    match phases.getLast? with
    | some last => { base with phase := last.name }
    | none => base

/-- One step of the loop body of compute_phase_statuses, from
src/parser/plan.rs lines 164-184: given the found_active flag and a phase,
produce the updated flag and the phase with its derived status.  The Rust
nests the identical condition `any_done || !found_active` twice; both tests
collapse to one here since the inner one is evaluated only when the outer
one already held. -/
def computePhaseStep (found_active : Bool) (phase : PlanPhase) : Bool × PlanPhase :=
  if phase.tasks.isEmpty then
    (found_active, { phase with status := PhaseStatus.Pending })
  else
    let all_done := phase.tasks.all (fun t => t.done)
    let any_done := phase.tasks.any (fun t => t.done)
    if all_done then
      (found_active, { phase with status := PhaseStatus.Complete })
    else if any_done || !found_active then
      (true, { phase with status := PhaseStatus.Active })
    else
      (found_active, { phase with status := PhaseStatus.Pending })

/-- The forward scan of compute_phase_statuses (the `for phase in
phases.iter_mut()` loop of src/parser/plan.rs lines 162-184), threading the
found_active flag. -/
def computeStatusesScan : Bool → List PlanPhase → Bool × List PlanPhase
  | fa, [] => (fa, [])
  | fa, p :: ps =>
    let r := computePhaseStep fa p
    let rest := computeStatusesScan r.1 ps
    (rest.1, r.2 :: rest.2)

/-- The post-loop fixup of compute_phase_statuses, from src/parser/plan.rs
lines 188-195: mark the first Pending phase with a non-empty task list as
Active. -/
def markFirstPendingActive : List PlanPhase → List PlanPhase
  | [] => []
  | p :: ps =>
    if p.status = PhaseStatus.Pending ∧ p.tasks ≠ [] then
      { p with status := PhaseStatus.Active } :: ps
    else
      p :: markFirstPendingActive ps

/-- compute_phase_statuses from src/parser/plan.rs lines 161-196: derive
phase statuses from task completion.  The fixup runs only when the scan
never set found_active. -/
def compute_phase_statuses (phases : List PlanPhase) : List PlanPhase :=
  let r := computeStatusesScan false phases
  if r.1 then r.2 else markFirstPendingActive r.2

/-- ReloadScope from src/model/cache.rs lines 11-16. -/
inductive ReloadScope where
  | Full
  | Tracks (ids : List String)
deriving DecidableEq

/-- The per-track file names recognised by the reload classifier's match in
src/model/cache.rs line 40. -/
def perTrackFileNames : List String :=
  ["metadata.json", "meta.yaml", "plan.md", "spec.md"]

/-- extract_track_id_from_path from src/model/cache.rs lines 83-94, over
paths modelled as lists of components: the parent directory name is the
track id provided the grandparent directory is named "tracks". -/
def extract_track_id_from_path (p : List String) : Option String :=
  match p.reverse with
  | _file :: dir :: gp :: _ => if gp = "tracks" then some dir else none
  | _ => none

/-- The loop of TrackCache::classify_changes from src/model/cache.rs lines
34-50, threading the full_reload flag and the accumulated changed-track
list. -/
def classifyLoop : Bool → List String → List (List String) → Bool × List String
  | full, acc, [] => (full, acc)
  | full, acc, p :: ps =>
    match p.getLast? with
    | none => classifyLoop full acc ps
    | some name =>
      if name = "tracks.md" then
        classifyLoop true acc ps
      else if name ∈ perTrackFileNames then
        match extract_track_id_from_path p with
        | some id =>
          if id ∈ acc then classifyLoop full acc ps
          else classifyLoop full (acc ++ [id]) ps
        | none => classifyLoop full acc ps
      else
        classifyLoop full acc ps

/-- TrackCache::classify_changes from src/model/cache.rs lines 30-57. -/
def classify_changes (paths : List (List String)) : ReloadScope :=
  let r := classifyLoop false [] paths
  if r.1 then ReloadScope.Full else ReloadScope.Tracks r.2

/-- First-seen deduplication with an explicit accumulator: the reference
shape of the identity accumulation inside classify_changes (an id is
appended only when not already contained). -/
def firstSeenAcc : List String → List String → List String
  | acc, [] => acc
  | acc, x :: xs =>
    if x ∈ acc then firstSeenAcc acc xs else firstSeenAcc (acc ++ [x]) xs

/-- IndexEntry from src/parser/index.rs lines 18-27: the result of parsing
one track entry of tracks.md. -/
structure IndexEntry where
  id : String
  title : String
  checkbox : CheckboxStatus
  status : Status
  priority : Priority
  tags : List String
  branch : Option String
  dependencies : List String
deriving DecidableEq

/-- The IndexEntry literal built by parse_h2_heading in src/parser/index.rs
lines 217-226: a fresh entry for a heading, with every field at its
default except the checkbox and title. -/
def initIndexEntry (cb : CheckboxStatus) (title : String) : IndexEntry where
  id := ""
  title := title
  checkbox := cb
  status := .New
  priority := .Medium
  tags := []
  branch := none
  dependencies := []

/-- Strip all leading and trailing occurrences of a character, as Rust's
str::trim_matches with a char pattern does. -/
def trimMatchesChar (c : Char) (s : String) : String :=
  String.mk (((s.data.dropWhile (fun x => x = c)).reverse.dropWhile
    (fun x => x = c)).reverse)

/-- apply_field from src/parser/index.rs lines 246-277: apply one parsed
bold-key field value to the current index entry. -/
def apply_field (entry : IndexEntry) (key value : String) : IndexEntry :=
  let value := trimWs value
  if key = "Priority" then
    { entry with priority := Priority.from_str_loose value }
  else if key = "Status" then
    { entry with status := Status.from_str_loose value }
  else if key = "Tags" then
    let tags := ((splitOnChar ',' value).map trimWs).filter (fun t => t.data ≠ [])
    { entry with tags := tags }
  else if key = "Branch" then
    let branch := trimMatchesChar '`' value
    if branch.data ≠ [] then { entry with branch := some branch } else entry
  else if key = "Dependencies" ∨ key = "Depends on" then
    let clean := fun (d : String) =>
      trimWs (((splitListOn ')' (trimMatchesChar '(' (trimMatchesChar '`'
        (trimWs d))).data).headD []).asString)
    let deps := ((splitOnChar ',' value).map clean).filter (fun d => d.data ≠ [])
    { entry with dependencies := deps }
  else
    entry

/-- Application of a sequence of parsed (key, value) fields to an entry, as
the body-walking loop of parse_index_content does one at a time. -/
def buildEntry (e : IndexEntry) (fields : List (String × String)) : IndexEntry :=
  fields.foldl (fun e kv => apply_field e kv.1 kv.2) e

/-- The status resolution of parse_index, src/parser/index.rs lines 48-52:
the explicit field-derived status wins unless it is New, in which case the
checkbox-derived status is used. -/
def resolveStatus (entry : IndexEntry) : Status :=
  if entry.status ≠ Status.New then entry.status else entry.checkbox.to_status

/-- The Track literal built from one index entry by parse_index,
src/parser/index.rs lines 54-64. -/
def trackFromEntry (entry : IndexEntry) : Track :=
  { Track.default with
    id := entry.id
    title := entry.title
    status := resolveStatus entry
    priority := entry.priority
    checkbox_status := entry.checkbox
    tags := entry.tags
    branch := entry.branch
    dependencies := entry.dependencies }

/-- Abstract content of one track's directory: for metadata.json and
meta.yaml, `none` means the file is absent, `some none` that it exists but
is malformed/unreadable, `some (some m)` that it parses to m; likewise for
plan.md with its parsed phases. -/
structure TrackDir where
  json : Option (Option TrackMetadata)
  yaml : Option (Option TrackMetadata)
  plan : Option (Option (List PlanPhase))

/-- parse_metadata from src/parser/metadata.rs lines 88-112: JSON is tried
first, YAML second; absence of both yields Ok(None); a present but
malformed/unreadable file is an error. -/
def parse_metadata (d : TrackDir) : Except Unit (Option TrackMetadata) :=
  match d.json with
  | some (some m) => .ok (some m)
  | some none => .error ()
  | none =>
    match d.yaml with
    | some (some m) => .ok (some m)
    | some none => .error ()
    | none => .ok none

/-- The per-track body of the load loop in src/parser/mod.rs lines 27-57:
merge metadata when it parsed (errors and absence merge nothing), then
merge the plan when the file exists and parsed (absence and errors merge
nothing). -/
def loadTrack (d : TrackDir) (t : Track) : Track :=
  let t1 := match parse_metadata d with
    | .ok (some meta) => t.merge_metadata meta
    | .ok none => t
    | .error _ => t
  match d.plan with
  | some (some phases) => t1.merge_plan phases
  | some none => t1
  | none => t1

/-- The display-level normalization applied to every track at the end of
load_all_tracks (src/parser/mod.rs lines 61-65) and after each per-track
reload (src/app.rs lines 152-155); named after the spec's
normalize_if_complete. -/
def normalize_if_complete (t : Track) : Track :=
  if t.status = Status.Complete then t.mark_all_tasks_complete else t

/-- Abstract conductor directory: the parse outcome of tracks.md (an error
when the master index is absent or unreadable, per src/parser/index.rs
lines 32-42) and the contents of each track's directory, keyed by id. -/
structure ConductorFS where
  index : Except Unit (List IndexEntry)
  dirs : String → TrackDir

/-- load_all_tracks from src/parser/mod.rs lines 22-68: parse the index
(propagating its error), build each entry's track, run the per-track
metadata/plan merges, and finally normalize Complete tracks. -/
def load_all_tracks (fs : ConductorFS) : Except Unit (List Track) :=
  match fs.index with
  | .error e => .error e
  | .ok entries =>
    .ok ((entries.map (fun e => loadTrack (fs.dirs e.id) (trackFromEntry e))).map
      normalize_if_complete)

/-- Specification-side definition (spec §4.5 wording): the displayed
current phase is the name of the first phase whose status is Active or
Pending, or, if none, the last phase's name; undefined on an empty list. -/
def currentPhaseNameSpec (phases : List PlanPhase) : Option String :=
  match phases.find? (fun p =>
      decide (p.status = PhaseStatus.Active ∨ p.status = PhaseStatus.Pending)) with
  | some p => some p.name
  | none => phases.getLast?.map (fun p => p.name)

theorem computePhaseStep_tasks (fa : Bool) (p : PlanPhase) :
    (computePhaseStep fa p).2.tasks = p.tasks := by
  unfold computePhaseStep
  split
  · rfl
  · dsimp only
    split
    · rfl
    · split <;> rfl

theorem computePhaseStep_empty (fa : Bool) (p : PlanPhase) (h : p.tasks = []) :
    (computePhaseStep fa p).2.status = PhaseStatus.Pending := by
  unfold computePhaseStep
  rw [if_pos (by simp [h])]

theorem computePhaseStep_all_done (fa : Bool) (p : PlanPhase) (hne : p.tasks ≠ [])
    (hdone : ∀ tk ∈ p.tasks, tk.done = true) :
    (computePhaseStep fa p).2.status = PhaseStatus.Complete := by
  unfold computePhaseStep
  rw [if_neg (by simp [hne])]
  dsimp only
  rw [if_pos (by simpa [List.all_eq_true] using hdone)]

theorem computeStatusesScan_mem (l : List PlanPhase) :
    ∀ (fa : Bool), ∀ p ∈ (computeStatusesScan fa l).2,
      (p.tasks = [] → p.status = PhaseStatus.Pending) ∧
      (p.tasks ≠ [] → (∀ tk ∈ p.tasks, tk.done = true) →
        p.status = PhaseStatus.Complete) := by
  induction l with
  | nil => intro fa p hp; simp [computeStatusesScan] at hp
  | cons q qs ih =>
    intro fa p hp
    simp only [computeStatusesScan, List.mem_cons] at hp
    rcases hp with h | h
    · subst h
      refine ⟨?_, ?_⟩
      · intro he
        have ht := computePhaseStep_tasks fa q
        exact computePhaseStep_empty fa q (by rw [← ht]; exact he) ▸ rfl
      · intro hne hdone
        have ht := computePhaseStep_tasks fa q
        refine computePhaseStep_all_done fa q ?_ ?_ ▸ rfl
        · rw [← ht]; exact hne
        · intro tk htk; exact hdone tk (ht ▸ htk)
    · exact ih (computePhaseStep fa q).1 p h

theorem markFirstPendingActive_mem (l : List PlanPhase) :
    ∀ p ∈ markFirstPendingActive l,
      p ∈ l ∨ ∃ q ∈ l, q.status = PhaseStatus.Pending ∧ q.tasks ≠ [] ∧
        p = { q with status := PhaseStatus.Active } := by
  induction l with
  | nil => intro p hp; simp [markFirstPendingActive] at hp
  | cons q qs ih =>
    intro p hp
    simp only [markFirstPendingActive] at hp
    split at hp
    · rename_i hcond
      rcases List.mem_cons.mp hp with h | h
      · exact Or.inr ⟨q, List.mem_cons_self q qs, hcond.1, hcond.2, h⟩
      · exact Or.inl (List.mem_cons_of_mem q h)
    · rcases List.mem_cons.mp hp with h | h
      · exact Or.inl (h ▸ List.mem_cons_self q qs)
      · rcases ih p h with h' | ⟨r, hr, hrs, hrne, hpr⟩
        · exact Or.inl (List.mem_cons_of_mem q h')
        · exact Or.inr ⟨r, List.mem_cons_of_mem q hr, hrs, hrne, hpr⟩

/-- C8: in the phase-status derivation, every phase with an empty task list
receives status Pending (hence is never the Active phase), and every phase
with a non-empty, fully-done task list receives status Complete. -/
theorem compute_phase_statuses_empty_pending_alldone_complete
    (phases : List PlanPhase) :
    ∀ p ∈ compute_phase_statuses phases,
      (p.tasks = [] → p.status = PhaseStatus.Pending ∧ p.status ≠ PhaseStatus.Active) ∧
      (p.tasks ≠ [] → (∀ tk ∈ p.tasks, tk.done = true) →
        p.status = PhaseStatus.Complete) := by
  intro p hp
  unfold compute_phase_statuses at hp
  dsimp only at hp
  split at hp
  · have h := computeStatusesScan_mem phases false p hp
    exact ⟨fun he => ⟨h.1 he, by rw [h.1 he]; intro hc; cases hc⟩, h.2⟩
  · rcases markFirstPendingActive_mem _ p hp with h | ⟨q, hq, hqs, hqne, hpq⟩
    · have h' := computeStatusesScan_mem phases false p h
      exact ⟨fun he => ⟨h'.1 he, by rw [h'.1 he]; intro hc; cases hc⟩, h'.2⟩
    · have hq' := computeStatusesScan_mem phases false q hq
      subst hpq
      refine ⟨fun he => absurd he hqne, fun hne hdone => ?_⟩
      exact absurd (hq'.2 hqne hdone) (by rw [hqs]; intro hc; cases hc)

/-- C8 witness: on the concrete plan [non-empty all-done phase, empty
phase], the derivation yields Complete and Pending respectively. -/
theorem compute_phase_statuses_empty_pending_alldone_complete_witness :
    (⟨"E", PhaseStatus.Pending, []⟩ : PlanPhase) ∈
        compute_phase_statuses
          [⟨"D", PhaseStatus.Pending, [⟨"d", true⟩]⟩, ⟨"E", PhaseStatus.Pending, []⟩] ∧
      (⟨"E", PhaseStatus.Pending, ([] : List PlanTask)⟩ : PlanPhase).status =
        PhaseStatus.Pending ∧
      (compute_phase_statuses
          [⟨"D", PhaseStatus.Pending, [⟨"d", true⟩]⟩,
           ⟨"E", PhaseStatus.Pending, []⟩]).map PlanPhase.status =
        [PhaseStatus.Complete, PhaseStatus.Pending] := by
  refine ⟨by decide, ?_, by decide⟩
  have h := compute_phase_statuses_empty_pending_alldone_complete
    [⟨"D", PhaseStatus.Pending, [⟨"d", true⟩]⟩, ⟨"E", PhaseStatus.Pending, []⟩]
    ⟨"E", PhaseStatus.Pending, []⟩ (by decide)
  exact (h.1 rfl).1

/-- C1: the code violates the at-most-one-Active law.  On a plan with two
phases that each have one done and one undone task, the forward scan
assigns Active to BOTH phases (the `any_done` disjunct fires for the later
phase even though found_active is already set), while the claim requires
the later partially-done phase to be Pending. -/
theorem compute_phase_statuses_two_partial_phases_both_active :
    (compute_phase_statuses
        [⟨"A", PhaseStatus.Pending, [⟨"a1", true⟩, ⟨"a2", false⟩]⟩,
         ⟨"B", PhaseStatus.Pending, [⟨"b1", true⟩, ⟨"b2", false⟩]⟩]).map
        PlanPhase.status = [PhaseStatus.Active, PhaseStatus.Active] ∧
      ((compute_phase_statuses
        [⟨"A", PhaseStatus.Pending, [⟨"a1", true⟩, ⟨"a2", false⟩]⟩,
         ⟨"B", PhaseStatus.Pending, [⟨"b1", true⟩, ⟨"b2", false⟩]⟩]).countP
        (fun p => decide (p.status = PhaseStatus.Active))) = 2 := by
  constructor <;> decide

/-- C2: merge_metadata overwrites a Track field exactly when the metadata
value is not the documented default (status New, priority Medium, type
Other, empty list, absent optional), so a default-valued metadata field
never replaces a Track field; and merging the same metadata twice yields
the same Track as merging it once. -/
theorem merge_metadata_nondefault_only_and_idempotent
    (t : Track) (m : TrackMetadata) :
    (m.status = Status.New → (t.merge_metadata m).status = t.status) ∧
      (m.status ≠ Status.New → (t.merge_metadata m).status = m.status) ∧
      (m.priority = Priority.Medium → (t.merge_metadata m).priority = t.priority) ∧
      (m.priority ≠ Priority.Medium → (t.merge_metadata m).priority = m.priority) ∧
      (m.track_type = TrackType.Other → (t.merge_metadata m).track_type = t.track_type) ∧
      (m.track_type ≠ TrackType.Other → (t.merge_metadata m).track_type = m.track_type) ∧
      (m.created_at = none → (t.merge_metadata m).created_at = t.created_at) ∧
      (m.created_at.isSome → (t.merge_metadata m).created_at = m.created_at) ∧
      (m.updated_at = none → (t.merge_metadata m).updated_at = t.updated_at) ∧
      (m.updated_at.isSome → (t.merge_metadata m).updated_at = m.updated_at) ∧
      (m.dependencies = [] → (t.merge_metadata m).dependencies = t.dependencies) ∧
      (m.dependencies ≠ [] → (t.merge_metadata m).dependencies = m.dependencies) ∧
      (m.tags = [] → (t.merge_metadata m).tags = t.tags) ∧
      (m.tags ≠ [] → (t.merge_metadata m).tags = m.tags) ∧
      (m.branch = none → (t.merge_metadata m).branch = t.branch) ∧
      (m.branch.isSome → (t.merge_metadata m).branch = m.branch) ∧
      (m.description = none → (t.merge_metadata m).description = t.description) ∧
      (m.description.isSome → (t.merge_metadata m).description = m.description) ∧
      (t.merge_metadata m).merge_metadata m = t.merge_metadata m := by
  unfold Track.merge_metadata
  refine ⟨?_, ?_, ?_, ?_, ?_, ?_, ?_, ?_, ?_, ?_, ?_, ?_, ?_, ?_, ?_, ?_, ?_, ?_, ?_⟩
  · intro h; simp [h]
  · intro h; simp [h]
  · intro h; simp [h]
  · intro h; simp [h]
  · intro h; simp [h]
  · intro h; simp [h]
  · intro h; simp [h]
  · intro h; rcases Option.isSome_iff_exists.mp h with ⟨dt, hdt⟩; simp [hdt]
  · intro h; simp [h]
  · intro h; rcases Option.isSome_iff_exists.mp h with ⟨dt, hdt⟩; simp [hdt]
  · intro h; simp [h]
  · intro h; simp [h]
  · intro h; simp [h]
  · intro h; simp [h]
  · intro h; simp [h]
  · intro h; simp [h]
  · intro h; simp [h]
  · intro h; simp [h]
  · simp only [Track.mk.injEq]
    refine ⟨trivial, trivial, ?_, ?_, ?_, trivial, ?_, ?_, ?_, trivial, trivial,
      trivial, trivial, ?_, ?_, ?_⟩
    · by_cases h : m.status ≠ Status.New <;> simp [h]
    · by_cases h : m.priority ≠ Priority.Medium <;> simp [h]
    · by_cases h : m.track_type ≠ TrackType.Other <;> simp [h]
    · cases m.created_at <;> rfl
    · cases m.updated_at <;> rfl
    · by_cases h : m.dependencies ≠ [] <;> simp [h]
    · by_cases h : m.tags ≠ [] <;> simp [h]
    · by_cases h : m.branch.isSome <;> simp [h]
    · by_cases h : m.description.isSome <;> simp [h]

/-- C2 witness: a concrete merge where non-default metadata fields (status,
tags) overwrite, default-valued ones (priority, branch) do not, and the
merge is idempotent. -/
theorem merge_metadata_nondefault_only_and_idempotent_witness :
    ((Track.default.merge_metadata
        ⟨Status.InProgress, Priority.Medium, TrackType.Other, none, none, [],
          ["backend"], none, none⟩).status = Status.InProgress) ∧
      ((Track.default.merge_metadata
        ⟨Status.InProgress, Priority.Medium, TrackType.Other, none, none, [],
          ["backend"], none, none⟩).priority = Track.default.priority) ∧
      ((Track.default.merge_metadata
        ⟨Status.InProgress, Priority.Medium, TrackType.Other, none, none, [],
          ["backend"], none, none⟩).tags = ["backend"]) ∧
      ((Track.default.merge_metadata
        ⟨Status.InProgress, Priority.Medium, TrackType.Other, none, none, [],
          ["backend"], none, none⟩).merge_metadata
        ⟨Status.InProgress, Priority.Medium, TrackType.Other, none, none, [],
          ["backend"], none, none⟩ =
        Track.default.merge_metadata
        ⟨Status.InProgress, Priority.Medium, TrackType.Other, none, none, [],
          ["backend"], none, none⟩) := by
  have h := merge_metadata_nondefault_only_and_idempotent Track.default
    ⟨Status.InProgress, Priority.Medium, TrackType.Other, none, none, [],
      ["backend"], none, none⟩
  exact ⟨h.2.1 (by decide), h.2.2.1 rfl,
    h.2.2.2.2.2.2.2.2.2.2.2.2.2.1 (by decide),
    h.2.2.2.2.2.2.2.2.2.2.2.2.2.2.2.2.2.2⟩

/-- A Track whose counters violate the unenforced completed-less-than-total
invariant, exhibiting a progress percentage above 100. -/
def overfullTrack : Track :=
  { Track.default with tasks_total := 1, tasks_completed := 2 }

/-- C9 counterexample: progress_percent is not bounded by 100 for every
Track: the counters are not structurally constrained, and a Track with
tasks_completed = 2, tasks_total = 1 yields 200. -/
theorem progress_percent_gt100_counterexample :
    overfullTrack.progress_percent = 200 ∧
      ¬ overfullTrack.progress_percent ≤ 100 := by
  have h : overfullTrack.progress_percent = 200 := by
    norm_num [overfullTrack, Track.progress_percent, Track.default]
  exact ⟨h, by rw [h]; norm_num⟩

/-- C9 (amended): progress_percent is 0 when tasks_total = 0, is always
non-negative (hence, over the exact rational model of the f32 arithmetic,
always a well-defined number), and is at most 100 whenever tasks_completed
does not exceed tasks_total. -/
theorem progress_percent_bounds (t : Track) :
    (t.tasks_total = 0 → t.progress_percent = 0) ∧
      0 ≤ t.progress_percent ∧
      (t.tasks_completed ≤ t.tasks_total → t.progress_percent ≤ 100) := by
  unfold Track.progress_percent
  refine ⟨fun h => by simp [h], ?_, ?_⟩
  · split
    · exact le_refl 0
    · positivity
  · intro hle
    split
    · norm_num
    · rename_i hne
      have hpos : (0 : ℚ) < (t.tasks_total : ℚ) := by
        exact_mod_cast Nat.pos_of_ne_zero hne
      have hdiv : (t.tasks_completed : ℚ) / (t.tasks_total : ℚ) ≤ 1 := by
        rw [div_le_one hpos]
        exact_mod_cast hle
      calc (t.tasks_completed : ℚ) / (t.tasks_total : ℚ) * 100
          ≤ 1 * 100 := by
            exact mul_le_mul_of_nonneg_right hdiv (by norm_num)
        _ = 100 := by norm_num

/-- C9 witness: the bounds evaluated on a zero-total Track and on a Track
with 3 of 7 tasks done. -/
theorem progress_percent_bounds_witness :
    Track.default.progress_percent = 0 ∧
      0 ≤ ({ Track.default with tasks_total := 7, tasks_completed := 3 } :
        Track).progress_percent ∧
      ({ Track.default with tasks_total := 7, tasks_completed := 3 } :
        Track).progress_percent ≤ 100 := by
  refine ⟨(progress_percent_bounds Track.default).1 rfl,
    (progress_percent_bounds _).2.1,
    (progress_percent_bounds
      { Track.default with tasks_total := 7, tasks_completed := 3 }).2.2
      (by norm_num)⟩

/-- C10: merging an empty phase sequence zeroes both task counters and
empties the phase list while leaving every other field — in particular the
current-phase name — unchanged. -/
theorem merge_plan_empty_frame (t : Track) :
    t.merge_plan [] =
      { t with tasks_total := 0, tasks_completed := 0, plan_phases := [] } := rfl

theorem merge_plan_fold (phases : List PlanPhase) :
    ∀ (a b : Nat),
      phases.foldl
        (fun (acc : Nat × Nat) ph =>
          (acc.1 + ph.tasks.length,
           acc.2 + (ph.tasks.filter (fun tk => tk.done)).length)) (a, b) =
      (a + (phases.map (fun p => p.tasks.length)).sum,
       b + (phases.map (fun p => (p.tasks.filter (fun tk => tk.done)).length)).sum) := by
  induction phases with
  | nil => intro a b; simp
  | cons p ps ih =>
    intro a b
    simp only [List.foldl_cons, List.map_cons, List.sum_cons]
    rw [ih]
    rw [Prod.mk.injEq]
    constructor <;> ring_nf

/-- C6: merge_plan sets the task counters to the exact sums of task counts
and done-task counts over the supplied phases (independent of their prior
values), replaces the phase list wholesale, and, on a non-empty phase
sequence, sets the current-phase name to the first Active-or-Pending
phase's name, falling back to the last phase's name. -/
theorem merge_plan_sums_and_current_phase (t : Track) (phases : List PlanPhase) :
    (t.merge_plan phases).tasks_total =
        (phases.map (fun p => p.tasks.length)).sum ∧
      (t.merge_plan phases).tasks_completed =
        (phases.map (fun p => (p.tasks.filter (fun tk => tk.done)).length)).sum ∧
      (t.merge_plan phases).plan_phases = phases ∧
      (phases ≠ [] →
        some (t.merge_plan phases).phase = currentPhaseNameSpec phases) := by
  unfold Track.merge_plan
  rw [merge_plan_fold]
  simp only [Nat.zero_add]
  cases hf : phases.find? (fun p =>
      decide (p.status = PhaseStatus.Active ∨ p.status = PhaseStatus.Pending)) with
  | some active =>
    refine ⟨rfl, rfl, rfl, fun _ => ?_⟩
    unfold currentPhaseNameSpec
    rw [hf]
  | none =>
    cases hl : phases.getLast? with
    | some last =>
      refine ⟨rfl, rfl, rfl, fun _ => ?_⟩
      unfold currentPhaseNameSpec
      rw [hf, hl]
      rfl
    | none =>
      refine ⟨rfl, rfl, rfl, fun hne => ?_⟩
      exact absurd (List.getLast?_eq_none_iff.mp hl) hne

/-- C6 witness: the spec's end-to-end scenario — phases A (2 of 2 done),
B (1 of 3 done, Active), C (0 of 2 done, Pending) yield totals 7 and 3 and
current phase B. -/
theorem merge_plan_sums_and_current_phase_witness :
    (Track.default.merge_plan
        [⟨"A", PhaseStatus.Complete, [⟨"a1", true⟩, ⟨"a2", true⟩]⟩,
         ⟨"B", PhaseStatus.Active, [⟨"b1", true⟩, ⟨"b2", false⟩, ⟨"b3", false⟩]⟩,
         ⟨"C", PhaseStatus.Pending, [⟨"c1", false⟩, ⟨"c2", false⟩]⟩]).tasks_total = 7 ∧
      (Track.default.merge_plan
        [⟨"A", PhaseStatus.Complete, [⟨"a1", true⟩, ⟨"a2", true⟩]⟩,
         ⟨"B", PhaseStatus.Active, [⟨"b1", true⟩, ⟨"b2", false⟩, ⟨"b3", false⟩]⟩,
         ⟨"C", PhaseStatus.Pending, [⟨"c1", false⟩, ⟨"c2", false⟩]⟩]).tasks_completed = 3 ∧
      some (Track.default.merge_plan
        [⟨"A", PhaseStatus.Complete, [⟨"a1", true⟩, ⟨"a2", true⟩]⟩,
         ⟨"B", PhaseStatus.Active, [⟨"b1", true⟩, ⟨"b2", false⟩, ⟨"b3", false⟩]⟩,
         ⟨"C", PhaseStatus.Pending, [⟨"c1", false⟩, ⟨"c2", false⟩]⟩]).phase =
        currentPhaseNameSpec
        [⟨"A", PhaseStatus.Complete, [⟨"a1", true⟩, ⟨"a2", true⟩]⟩,
         ⟨"B", PhaseStatus.Active, [⟨"b1", true⟩, ⟨"b2", false⟩, ⟨"b3", false⟩]⟩,
         ⟨"C", PhaseStatus.Pending, [⟨"c1", false⟩, ⟨"c2", false⟩]⟩] := by
  have h := merge_plan_sums_and_current_phase Track.default
    [⟨"A", PhaseStatus.Complete, [⟨"a1", true⟩, ⟨"a2", true⟩]⟩,
     ⟨"B", PhaseStatus.Active, [⟨"b1", true⟩, ⟨"b2", false⟩, ⟨"b3", false⟩]⟩,
     ⟨"C", PhaseStatus.Pending, [⟨"c1", false⟩, ⟨"c2", false⟩]⟩]
  refine ⟨?_, ?_, h.2.2.2 (by decide)⟩
  · rw [h.1]; decide
  · rw [h.2.1]; decide

theorem classifyLoop_first_component (paths : List (List String)) :
    ∀ (acc : List String), (classifyLoop true acc paths).1 = true := by
  induction paths with
  | nil => intro acc; rfl
  | cons p ps ih =>
    intro acc
    unfold classifyLoop
    cases hl : p.getLast? with
    | none => exact ih acc
    | some name =>
      dsimp only
      split
      · exact ih acc
      · split
        · cases hx : extract_track_id_from_path p with
          | some id =>
            dsimp only
            split
            · exact ih acc
            · exact ih (acc ++ [id])
          | none => exact ih acc
        · exact ih acc

theorem classifyLoop_sees_index (paths : List (List String)) :
    ∀ (full : Bool) (acc : List String),
      (∃ p ∈ paths, p.getLast? = some "tracks.md") →
      (classifyLoop full acc paths).1 = true := by
  induction paths with
  | nil => intro full acc h; simp at h
  | cons p ps ih =>
    intro full acc h
    unfold classifyLoop
    rcases h with ⟨q, hq, hql⟩
    rcases List.mem_cons.mp hq with rfl | hq'
    · rw [hql]
      dsimp only
      rw [if_pos rfl]
      exact classifyLoop_first_component ps acc
    · cases hl : p.getLast? with
      | none => exact ih full acc ⟨q, hq', hql⟩
      | some name =>
        dsimp only
        split
        · exact classifyLoop_first_component ps acc
        · split
          · cases hx : extract_track_id_from_path p with
            | some id =>
              dsimp only
              split
              · exact ih full acc ⟨q, hq', hql⟩
              · exact ih full (acc ++ [id]) ⟨q, hq', hql⟩
            | none => exact ih full acc ⟨q, hq', hql⟩
          · exact ih full acc ⟨q, hq', hql⟩

theorem classifyLoop_per_track_only (paths : List (List String)) :
    ∀ (full : Bool) (acc : List String),
      (∀ p ∈ paths, ∃ n ∈ perTrackFileNames, p.getLast? = some n) →
      classifyLoop full acc paths =
        (full, firstSeenAcc acc (paths.filterMap extract_track_id_from_path)) := by
  induction paths with
  | nil => intro full acc h; rfl
  | cons p ps ih =>
    intro full acc h
    rcases h p (List.mem_cons_self p ps) with ⟨n, hn, hnl⟩
    have hrest : ∀ q ∈ ps, ∃ n ∈ perTrackFileNames, q.getLast? = some n :=
      fun q hq => h q (List.mem_cons_of_mem p hq)
    have hnotidx : n ≠ "tracks.md" := by
      intro hEq; subst hEq; revert hn; decide
    unfold classifyLoop
    rw [hnl]
    dsimp only
    rw [if_neg hnotidx, if_pos hn]
    cases hx : extract_track_id_from_path p with
    | some id =>
      dsimp only
      rw [List.filterMap_cons, hx]
      dsimp only
      by_cases hmem : id ∈ acc
      · rw [if_pos hmem]
        unfold firstSeenAcc
        rw [if_pos hmem]
        exact ih full acc hrest
      · rw [if_neg hmem]
        unfold firstSeenAcc
        rw [if_neg hmem]
        exact ih full (acc ++ [id]) hrest
    | none =>
      rw [List.filterMap_cons, hx]
      exact ih full acc hrest

theorem firstSeenAcc_mem (xs : List String) :
    ∀ (acc : List String) (y : String),
      y ∈ firstSeenAcc acc xs ↔ y ∈ acc ∨ y ∈ xs := by
  induction xs with
  | nil => intro acc y; simp [firstSeenAcc]
  | cons x xs ih =>
    intro acc y
    unfold firstSeenAcc
    split
    · rename_i hmem
      rw [ih]
      constructor
      · rintro (h | h)
        · exact Or.inl h
        · exact Or.inr (List.mem_cons_of_mem x h)
      · rintro (h | h)
        · exact Or.inl h
        · rcases List.mem_cons.mp h with rfl | h'
          · exact Or.inl hmem
          · exact Or.inr h'
    · rw [ih]
      simp only [List.mem_append, List.mem_singleton, List.mem_cons]
      tauto

theorem firstSeenAcc_nodup (xs : List String) :
    ∀ (acc : List String), acc.Nodup → (firstSeenAcc acc xs).Nodup := by
  induction xs with
  | nil => intro acc h; exact h
  | cons x xs ih =>
    intro acc h
    unfold firstSeenAcc
    split
    · exact ih acc h
    · rename_i hmem
      refine ih (acc ++ [x]) ?_
      simp [List.nodup_append, h, hmem]

theorem firstSeenAcc_sublist (xs : List String) :
    ∀ (acc : List String),
      ∃ t, firstSeenAcc acc xs = acc ++ t ∧ List.Sublist t xs := by
  induction xs with
  | nil => intro acc; exact ⟨[], by simp [firstSeenAcc]⟩
  | cons x xs ih =>
    intro acc
    unfold firstSeenAcc
    split
    · rcases ih acc with ⟨t, ht, hs⟩
      exact ⟨t, ht, List.Sublist.cons x hs⟩
    · rcases ih (acc ++ [x]) with ⟨t, ht, hs⟩
      refine ⟨x :: t, ?_, List.Sublist.cons₂ x hs⟩
      rw [ht, List.append_assoc]
      rfl

theorem classify_changes_eq_loop (paths : List (List String)) :
    classify_changes paths =
      if (classifyLoop false [] paths).1 = true then ReloadScope.Full
      else ReloadScope.Tracks (classifyLoop false [] paths).2 := rfl

theorem extract_track_id_shape (p : List String) (id : String) :
    extract_track_id_from_path p = some id ↔
      ∃ pre f, p = pre ++ ["tracks", id, f] := by
  constructor
  · intro h
    unfold extract_track_id_from_path at h
    cases hr : p.reverse with
    | nil => rw [hr] at h; cases h
    | cons f rest =>
      cases rest with
      | nil => rw [hr] at h; cases h
      | cons d rest2 =>
        cases rest2 with
        | nil => rw [hr] at h; cases h
        | cons g rest3 =>
          rw [hr] at h
          dsimp only at h
          split at h
          · rename_i hg
            injection h with hid
            refine ⟨rest3.reverse, f, ?_⟩
            have hp : p = (f :: d :: g :: rest3).reverse := by
              rw [← hr, List.reverse_reverse]
            rw [hp]
            simp [hg, hid]
          · cases h
  · rintro ⟨pre, f, rfl⟩
    unfold extract_track_id_from_path
    have hrev : (pre ++ ["tracks", id, f]).reverse =
        f :: id :: "tracks" :: pre.reverse := by simp
    rw [hrev]
    simp

/-- C3: if any changed path's filename is tracks.md the classification is
unconditionally Full; for a batch of per-track-named files the result is
the partial list of exactly the identities extracted from paths of shape
.../tracks/(identity)/(file), each at most once (Nodup), in first-seen
order (a sublist of the extraction order, complete for membership); and an
identity is extracted from a path precisely when the path has that shape. -/
theorem classify_changes_full_or_distinct_first_seen
    (paths : List (List String)) (p : List String) (id : String) :
    ((∃ q ∈ paths, q.getLast? = some "tracks.md") →
        classify_changes paths = ReloadScope.Full) ∧
      ((∀ q ∈ paths, ∃ n ∈ perTrackFileNames, q.getLast? = some n) →
        classify_changes paths =
          ReloadScope.Tracks
            (firstSeenAcc [] (paths.filterMap extract_track_id_from_path)) ∧
        (firstSeenAcc [] (paths.filterMap extract_track_id_from_path)).Nodup ∧
        List.Sublist (firstSeenAcc [] (paths.filterMap extract_track_id_from_path))
          (paths.filterMap extract_track_id_from_path) ∧
        (∀ x, x ∈ firstSeenAcc [] (paths.filterMap extract_track_id_from_path) ↔
          x ∈ paths.filterMap extract_track_id_from_path)) ∧
      (extract_track_id_from_path p = some id ↔
        ∃ pre f, p = pre ++ ["tracks", id, f]) := by
  refine ⟨?_, ?_, extract_track_id_shape p id⟩
  · intro h
    rw [classify_changes_eq_loop, classifyLoop_sees_index paths false [] h]
    rfl
  · intro h
    have hloop := classifyLoop_per_track_only paths false [] h
    have hsub := firstSeenAcc_sublist (paths.filterMap extract_track_id_from_path) []
    rcases hsub with ⟨t, ht, hs⟩
    refine ⟨?_, firstSeenAcc_nodup _ [] List.nodup_nil, ?_, ?_⟩
    · rw [classify_changes_eq_loop, hloop]
      rfl
    · rw [ht]; simpa using hs
    · intro x
      rw [firstSeenAcc_mem]
      simp

/-- C3 witness: the spec's end-to-end scenario — per-track changes under
tracks/a and tracks/b classify to the partial list [a, b]; adding a
tracks.md path to the batch forces a full reload. -/
theorem classify_changes_full_or_distinct_first_seen_witness :
    classify_changes
        [["r", "tracks", "a", "plan.md"], ["r", "tracks", "b", "meta.yaml"],
         ["r", "tracks", "a", "spec.md"]] = ReloadScope.Tracks ["a", "b"] ∧
      classify_changes
        [["r", "tracks", "a", "plan.md"], ["r", "tracks", "b", "meta.yaml"],
         ["r", "tracks.md"]] = ReloadScope.Full ∧
      extract_track_id_from_path ["r", "tracks", "a", "plan.md"] = some "a" := by
  refine ⟨?_, ?_, ?_⟩
  · have h := (classify_changes_full_or_distinct_first_seen
      [["r", "tracks", "a", "plan.md"], ["r", "tracks", "b", "meta.yaml"],
       ["r", "tracks", "a", "spec.md"]] [] "").2.1 (by decide)
    rw [h.1]; rfl
  · exact (classify_changes_full_or_distinct_first_seen
      [["r", "tracks", "a", "plan.md"], ["r", "tracks", "b", "meta.yaml"],
       ["r", "tracks.md"]] [] "").1 ⟨["r", "tracks.md"], by decide, rfl⟩
  · exact ((classify_changes_full_or_distinct_first_seen []
      ["r", "tracks", "a", "plan.md"] "a").2.2).mpr ⟨["r"], "plan.md", rfl⟩

theorem apply_field_status_other (e : IndexEntry) (k v : String)
    (hk : k ≠ "Status") : (apply_field e k v).status = e.status := by
  simp only [apply_field]
  split_ifs <;> simp_all

theorem apply_field_checkbox (e : IndexEntry) (k v : String) :
    (apply_field e k v).checkbox = e.checkbox := by
  simp only [apply_field]
  split_ifs <;> rfl

theorem buildEntry_status_no_status_field (fields : List (String × String)) :
    ∀ (e : IndexEntry), (∀ kv ∈ fields, kv.1 ≠ "Status") →
      (buildEntry e fields).status = e.status := by
  induction fields with
  | nil => intro e h; rfl
  | cons kv kvs ih =>
    intro e h
    unfold buildEntry
    rw [List.foldl_cons]
    have h1 := ih (apply_field e kv.1 kv.2) fun x hx => h x (List.mem_cons_of_mem kv hx)
    unfold buildEntry at h1
    rw [h1, apply_field_status_other e kv.1 kv.2 (h kv (List.mem_cons_self kv kvs))]

theorem buildEntry_checkbox (fields : List (String × String)) :
    ∀ (e : IndexEntry), (buildEntry e fields).checkbox = e.checkbox := by
  induction fields with
  | nil => intro e; rfl
  | cons kv kvs ih =>
    intro e
    unfold buildEntry
    rw [List.foldl_cons]
    have h1 := ih (apply_field e kv.1 kv.2)
    unfold buildEntry at h1
    rw [h1, apply_field_checkbox]

/-- C4 counterexample: the checkbox-derived status can be used even when an
explicit status field IS present.  An entry whose body carries the explicit
field Status: not_started (which coerces to the default New) and whose
heading checkbox is [x] resolves to Complete — the checkbox value — so
"only when no explicit status field is present" fails on the code. -/
theorem resolve_status_explicit_field_counterexample :
    Status.from_str_loose "not_started" = Status.New ∧
      (buildEntry (initIndexEntry CheckboxStatus.Checked "T")
        [("Status", "not_started")]).status = Status.New ∧
      resolveStatus (buildEntry (initIndexEntry CheckboxStatus.Checked "T")
        [("Status", "not_started")]) = CheckboxStatus.Checked.to_status ∧
      CheckboxStatus.Checked.to_status = Status.Complete ∧
      Status.Complete ≠ Status.New := by
  refine ⟨?_, ?_, ?_, rfl, by decide⟩ <;> decide

/-- C4 (amended): checkbox_to_status maps Checked to Complete, InProgress
to InProgress and Unchecked to New; parse_index uses the checkbox-derived
status exactly when the entry's field-derived status equals New — which
holds in particular whenever no explicit status field is present — and uses
the explicit status whenever it coerces to a non-New value. -/
theorem checkbox_fallback_resolution (e : IndexEntry) (cb : CheckboxStatus)
    (title : String) (fields : List (String × String)) :
    (CheckboxStatus.Checked.to_status = Status.Complete ∧
        CheckboxStatus.InProgress.to_status = Status.InProgress ∧
        CheckboxStatus.Unchecked.to_status = Status.New) ∧
      (e.status = Status.New → resolveStatus e = e.checkbox.to_status) ∧
      (e.status ≠ Status.New → resolveStatus e = e.status) ∧
      ((∀ kv ∈ fields, kv.1 ≠ "Status") →
        (buildEntry (initIndexEntry cb title) fields).status = Status.New ∧
        resolveStatus (buildEntry (initIndexEntry cb title) fields) =
          cb.to_status) := by
  refine ⟨⟨rfl, rfl, rfl⟩, ?_, ?_, ?_⟩
  · intro h
    unfold resolveStatus
    rw [if_neg (by simp [h])]
  · intro h
    unfold resolveStatus
    rw [if_pos h]
  · intro h
    have hs : (buildEntry (initIndexEntry cb title) fields).status = Status.New :=
      buildEntry_status_no_status_field fields _ h
    refine ⟨hs, ?_⟩
    unfold resolveStatus
    rw [if_neg (by simp [hs]), buildEntry_checkbox]
    rfl

/-- C4 witness: an entry with no explicit status field and an in-progress
checkbox resolves to the checkbox-derived InProgress. -/
theorem checkbox_fallback_resolution_witness :
    (buildEntry (initIndexEntry CheckboxStatus.InProgress "T")
        [("Priority", "high")]).status = Status.New ∧
      resolveStatus (buildEntry (initIndexEntry CheckboxStatus.InProgress "T")
        [("Priority", "high")]) = CheckboxStatus.InProgress.to_status ∧
      CheckboxStatus.InProgress.to_status = Status.InProgress := by
  have h := (checkbox_fallback_resolution
    (initIndexEntry CheckboxStatus.InProgress "T") CheckboxStatus.InProgress "T"
    [("Priority", "high")]).2.2.2 (by decide)
  exact ⟨h.1, h.2, rfl⟩

theorem mark_all_tasks_complete_spec (t : Track) :
    (∀ ph ∈ t.mark_all_tasks_complete.plan_phases,
        ph.status = PhaseStatus.Complete ∧ ∀ tk ∈ ph.tasks, tk.done = true) ∧
      t.mark_all_tasks_complete.tasks_completed =
        t.mark_all_tasks_complete.tasks_total ∧
      t.mark_all_tasks_complete.status = t.status := by
  refine ⟨?_, rfl, rfl⟩
  intro ph hph
  unfold Track.mark_all_tasks_complete at hph
  simp only [List.mem_map] at hph
  rcases hph with ⟨ph0, _, rfl⟩
  refine ⟨rfl, ?_⟩
  intro tk htk
  simp only [List.mem_map] at htk
  rcases htk with ⟨tk0, _, rfl⟩
  rfl

theorem normalize_if_complete_spec (t : Track)
    (h : (normalize_if_complete t).status = Status.Complete) :
    (∀ ph ∈ (normalize_if_complete t).plan_phases,
        ph.status = PhaseStatus.Complete ∧ ∀ tk ∈ ph.tasks, tk.done = true) ∧
      (normalize_if_complete t).tasks_completed =
        (normalize_if_complete t).tasks_total := by
  unfold normalize_if_complete
  unfold normalize_if_complete at h
  split
  · exact ⟨(mark_all_tasks_complete_spec t).1, (mark_all_tasks_complete_spec t).2.1⟩
  · rename_i hne
    rw [if_neg hne] at h
    exact absurd h hne

/-- C5: whenever a Track's status is Complete, the normalization applied at
the end of a full load (and after each per-track reload) leaves every task
of every phase done, every phase Complete, and the completed counter equal
to the total; consequently every Complete track in a successful
load_all_tracks result has these properties. -/
theorem complete_tracks_normalized (t : Track) (fs : ConductorFS)
    (l : List Track) :
    (t.status = Status.Complete →
        (∀ ph ∈ (normalize_if_complete t).plan_phases,
          ph.status = PhaseStatus.Complete ∧ ∀ tk ∈ ph.tasks, tk.done = true) ∧
        (normalize_if_complete t).tasks_completed =
          (normalize_if_complete t).tasks_total) ∧
      (load_all_tracks fs = .ok l → ∀ u ∈ l, u.status = Status.Complete →
        (∀ ph ∈ u.plan_phases,
          ph.status = PhaseStatus.Complete ∧ ∀ tk ∈ ph.tasks, tk.done = true) ∧
        u.tasks_completed = u.tasks_total) := by
  constructor
  · intro h
    refine normalize_if_complete_spec t ?_
    unfold normalize_if_complete
    rw [if_pos h]
    rw [(mark_all_tasks_complete_spec t).2.2]
    exact h
  · intro hload u hu hus
    unfold load_all_tracks at hload
    cases hidx : fs.index with
    | error e => rw [hidx] at hload; cases hload
    | ok entries =>
      rw [hidx] at hload
      injection hload with hl
      subst hl
      rcases List.mem_map.mp hu with ⟨v, _, rfl⟩
      exact normalize_if_complete_spec v hus

/-- C5 witness: a concrete track marked Complete whose plan still has an
unticked task is fully normalized. -/
theorem complete_tracks_normalized_witness :
    (∀ ph ∈ (normalize_if_complete
        { Track.default with
            status := Status.Complete
            tasks_total := 2
            tasks_completed := 1
            plan_phases :=
              [⟨"P", PhaseStatus.Active, [⟨"t1", true⟩, ⟨"t2", false⟩]⟩] }).plan_phases,
      ph.status = PhaseStatus.Complete ∧ ∀ tk ∈ ph.tasks, tk.done = true) ∧
      (normalize_if_complete
        { Track.default with
            status := Status.Complete
            tasks_total := 2
            tasks_completed := 1
            plan_phases :=
              [⟨"P", PhaseStatus.Active, [⟨"t1", true⟩, ⟨"t2", false⟩]⟩] }).tasks_completed =
      (normalize_if_complete
        { Track.default with
            status := Status.Complete
            tasks_total := 2
            tasks_completed := 1
            plan_phases :=
              [⟨"P", PhaseStatus.Active, [⟨"t1", true⟩, ⟨"t2", false⟩]⟩] }).tasks_total := by
  exact (complete_tracks_normalized
    { Track.default with
        status := Status.Complete
        tasks_total := 2
        tasks_completed := 1
        plan_phases :=
          [⟨"P", PhaseStatus.Active, [⟨"t1", true⟩, ⟨"t2", false⟩]⟩] }
    ⟨.error (), fun _ => ⟨none, none, none⟩⟩ []).1 rfl

theorem merge_metadata_counts (t : Track) (m : TrackMetadata) :
    (t.merge_metadata m).tasks_total = t.tasks_total ∧
      (t.merge_metadata m).tasks_completed = t.tasks_completed ∧
      (t.merge_metadata m).plan_phases = t.plan_phases ∧
      (t.merge_metadata m).id = t.id := ⟨rfl, rfl, rfl, rfl⟩

theorem merge_plan_id (t : Track) (phases : List PlanPhase) :
    (t.merge_plan phases).id = t.id := by
  unfold Track.merge_plan
  dsimp only
  cases phases.find? (fun p =>
      decide (p.status = PhaseStatus.Active ∨ p.status = PhaseStatus.Pending)) with
  | some a => rfl
  | none =>
    cases phases.getLast? with
    | some last => rfl
    | none => rfl

theorem loadTrack_id (d : TrackDir) (t : Track) :
    (loadTrack d t).id = t.id := by
  unfold loadTrack
  cases parse_metadata d with
  | error e =>
    cases d.plan with
    | none => rfl
    | some po =>
      cases po with
      | none => rfl
      | some phases => exact merge_plan_id t phases
  | ok mo =>
    cases mo with
    | none =>
      cases d.plan with
      | none => rfl
      | some po =>
        cases po with
        | none => rfl
        | some phases => exact merge_plan_id t phases
    | some m =>
      cases d.plan with
      | none => rfl
      | some po =>
        cases po with
        | none => rfl
        | some phases => exact merge_plan_id (t.merge_metadata m) phases

theorem normalize_if_complete_id (t : Track) :
    (normalize_if_complete t).id = t.id := by
  unfold normalize_if_complete
  split <;> rfl

/-- C7: a full load fails exactly when the master index is absent or
unreadable; a metadata parse error leaves the track identical to one whose
metadata files are wholly absent; a missing plan file leaves the track's
task counters and phase list unchanged; absence of both metadata files is
Ok-no-metadata, not an error; and whenever the index parses, the load
succeeds with one output track per index entry (in order, ids preserved),
regardless of any per-track errors. -/
theorem load_fatal_only_index_and_per_track_locality (fs : ConductorFS)
    (d : TrackDir) (t : Track) (entries : List IndexEntry) :
    (load_all_tracks fs = .error () ↔ fs.index = .error ()) ∧
      (parse_metadata d = .error () →
        loadTrack d t = loadTrack ⟨none, none, d.plan⟩ t) ∧
      (d.plan = none →
        (loadTrack d t).tasks_total = t.tasks_total ∧
        (loadTrack d t).tasks_completed = t.tasks_completed ∧
        (loadTrack d t).plan_phases = t.plan_phases) ∧
      (d.json = none → d.yaml = none → parse_metadata d = .ok none) ∧
      (fs.index = .ok entries →
        ∃ l, load_all_tracks fs = .ok l ∧ l.length = entries.length ∧
          ∀ (i : Nat) (h1 : i < l.length) (h2 : i < entries.length),
            (l.get ⟨i, h1⟩).id = (entries.get ⟨i, h2⟩).id) := by
  refine ⟨?_, ?_, ?_, ?_, ?_⟩
  · unfold load_all_tracks
    cases hidx : fs.index with
    | error e => simp
    | ok entries0 => simp
  · intro herr
    unfold loadTrack
    rw [herr]
    have h2 : parse_metadata ⟨none, none, d.plan⟩ = .ok none := rfl
    rw [h2]
  · intro hplan
    unfold loadTrack
    rw [hplan]
    cases parse_metadata d with
    | error e => exact ⟨rfl, rfl, rfl⟩
    | ok mo =>
      cases mo with
      | none => exact ⟨rfl, rfl, rfl⟩
      | some m => exact (merge_metadata_counts t m).2.2.1 ▸ ⟨rfl, rfl, rfl⟩
  · intro hj hy
    unfold parse_metadata
    rw [hj, hy]
  · intro hidx
    refine ⟨(entries.map (fun e => loadTrack (fs.dirs e.id) (trackFromEntry e))).map
      normalize_if_complete, ?_, by simp, ?_⟩
    · unfold load_all_tracks
      rw [hidx]
    · intro i h1 h2
      simp only [List.get_eq_getElem, List.getElem_map]
      rw [normalize_if_complete_id, loadTrack_id]
      rfl

/-- C7 witness: over a concrete directory whose index parses to one entry,
whose metadata file is malformed and whose plan file is absent, the load
still succeeds; and an empty track directory yields Ok-no-metadata. -/
theorem load_fatal_only_index_and_per_track_locality_witness :
    (load_all_tracks ⟨.error (), fun _ => ⟨none, none, none⟩⟩ = .error () ↔
        (⟨.error (), fun _ => ⟨none, none, none⟩⟩ : ConductorFS).index = .error ()) ∧
      loadTrack ⟨some none, none, none⟩ Track.default =
        loadTrack ⟨none, none, none⟩ Track.default ∧
      (loadTrack ⟨some none, none, none⟩ Track.default).tasks_total =
        Track.default.tasks_total ∧
      parse_metadata ⟨none, none, none⟩ = .ok none ∧
      load_all_tracks
          ⟨.ok [initIndexEntry CheckboxStatus.Unchecked "T"],
            fun _ => ⟨some none, none, none⟩⟩ ≠ .error () := by
  have h1 := load_fatal_only_index_and_per_track_locality
    ⟨.error (), fun _ => ⟨none, none, none⟩⟩ ⟨some none, none, none⟩
    Track.default []
  have h2 := load_fatal_only_index_and_per_track_locality
    ⟨.ok [initIndexEntry CheckboxStatus.Unchecked "T"],
      fun _ => ⟨some none, none, none⟩⟩ ⟨none, none, none⟩
    Track.default [initIndexEntry CheckboxStatus.Unchecked "T"]
  refine ⟨h1.1, h1.2.1 rfl, (h1.2.2.1 rfl).1, h2.2.2.2.1 rfl rfl, ?_⟩
  rcases h2.2.2.2.2 rfl with ⟨l, hl, _, _⟩
  rw [hl]
  intro hcontra
  cases hcontra

end Conductor
